import Mathlib

/-!
Verification of the tensor autograd / movement-op engine in
`tinygrad/tensor.py`.

The embedding has three layers:
* a dense N-dimensional tensor value model (`T`): a shape together with a
  total lookup function on multi-indices, with the movement primitives
  (reshape / expand / flip / pad / shrink) and the high-level compositions
  (`slice`, `cat`, `__getitem__`) translated from the source;
* an autograd-graph model (`Tsr`, `Ctx`, `mkCtx`, `applyOp`, `deepwalk`,
  `backward`) translated from `Function.__init__`, `Function.apply`,
  `Tensor.deepwalk` and `Tensor.backward`;
* shape-level formulas for `_pool` output extents and for the `-1`
  resolution in `Tensor.reshape`.
-/

namespace TG

/-! ### Multi-index helpers (row-major flattening, as a reshape reinterprets
the underlying buffer) -/

/-- `validIdx sh idx`: `idx` is a componentwise in-bounds multi-index for
shape `sh` (same length, every coordinate below the axis size). -/
def validIdx : List Nat → List Nat → Bool
  | [], [] => true
  | s :: ss, i :: is => i < s && validIdx ss is
  | _, _ => false

/-- Row-major flat offset of multi-index `idx` in shape `sh`. -/
def idxFlat : List Nat → List Nat → Nat
  | _, [] => 0
  | [], _ :: _ => 0
  | _ :: ss, i :: is => i * ss.prod + idxFlat ss is

/-- Inverse of `idxFlat`: the multi-index of flat offset `n` in shape `sh`. -/
def idxUnflat : List Nat → Nat → List Nat
  | [], _ => []
  | _ :: ss, n => (n / ss.prod) :: idxUnflat ss (n % ss.prod)

theorem idxFlat_lt {sh idx : List Nat} (h : validIdx sh idx = true) :
    idxFlat sh idx < sh.prod := by
  induction sh generalizing idx with
  | nil => cases idx <;> simp_all [validIdx, idxFlat]
  | cons s ss ih =>
    cases idx with
    | nil => simp [validIdx] at h
    | cons i is =>
      simp only [validIdx, Bool.and_eq_true, decide_eq_true_eq] at h
      have hr := ih h.2
      simp only [idxFlat, List.prod_cons]
      calc i * ss.prod + idxFlat ss is < i * ss.prod + ss.prod := by omega
        _ = (i + 1) * ss.prod := by ring
        _ ≤ s * ss.prod := Nat.mul_le_mul_right _ h.1

theorem idxUnflat_flat {sh idx : List Nat} (h : validIdx sh idx = true) :
    idxUnflat sh (idxFlat sh idx) = idx := by
  induction sh generalizing idx with
  | nil => cases idx <;> simp_all [validIdx, idxUnflat]
  | cons s ss ih =>
    cases idx with
    | nil => simp [validIdx] at h
    | cons i is =>
      simp only [validIdx, Bool.and_eq_true, decide_eq_true_eq] at h
      have hlt : idxFlat ss is < ss.prod := idxFlat_lt h.2
      have hpos : 0 < ss.prod := by omega
      simp only [idxUnflat, idxFlat]
      rw [Nat.add_comm (i * ss.prod), Nat.add_mul_div_right _ _ hpos,
        Nat.div_eq_of_lt hlt, Nat.add_mul_mod_self_right, Nat.mod_eq_of_lt hlt,
        ih h.2]
      simp

/-! ### Dense tensor value model

A tensor value is a shape together with a total lookup function on
multi-indices; only the values at `validIdx`-indices are meaningful. -/

/-- A dense tensor value: shape plus multi-index lookup. -/
structure T where
  shape : List Nat
  data : List Nat → Int

instance : Inhabited T := ⟨⟨[], fun _ => 0⟩⟩

/-- Modelled from the spec: `reshape` reinterprets the buffer under a new
shape with the element count preserved, so the element at multi-index `idx`
of the result is the element of `t` at the same row-major flat offset. -/
def reshape (t : T) (s : List Nat) : T :=
  ⟨s, fun idx => t.data (idxUnflat t.shape (idxFlat s idx))⟩

/-- Modelled from the spec: `expand` broadcasts size-1 axes to the target
sizes; reading the result at `idx` reads `t` with the coordinates of the
broadcast (size-1) axes reset to 0. -/
def expand (t : T) (s : List Nat) : T :=
  ⟨s, fun idx => t.data (List.zipWith (fun ts i => if ts = 1 then 0 else i) t.shape idx)⟩

/-- Modelled from the spec: `flip` reverses the selected axes. -/
def flip (t : T) (axes : List Nat) : T :=
  ⟨t.shape, fun idx =>
    t.data (List.zipWith
      (fun p i => if p ∈ axes then t.shape.getD p 1 - 1 - i else i)
      (List.range idx.length) idx)⟩

/-- Bounds test used by `pad`: every coordinate of `idx` falls inside the
original (pre-pad) region of the padded tensor. -/
def inPad : List Nat → List (Nat × Nat) → List Nat → Bool
  | [], [], [] => true
  | s :: ss, p :: ps, i :: is => p.1 ≤ i && i < p.1 + s && inPad ss ps is
  | _, _, _ => false

/-- Modelled from the spec: `pad` inserts zero-filled margins per axis
(amount before/after); reads inside the original region index into `t`,
reads in the margins give 0. -/
def pad (t : T) (arg : List (Nat × Nat)) : T :=
  ⟨List.zipWith (fun s p => p.1 + s + p.2) t.shape arg,
   fun idx =>
     if inPad t.shape arg idx then
       t.data (List.zipWith (fun i p => i - p.1) idx arg)
     else 0⟩

/-- Modelled from the spec: `shrink` selects a contiguous sub-range
`[p.1, p.2)` per axis. -/
def shrink (t : T) (arg : List (Nat × Nat)) : T :=
  ⟨arg.map (fun p => p.2 - p.1),
   fun idx => t.data (List.zipWith (fun i p => i + p.1) idx arg)⟩

/-- `Tensor.pad` (tensor.py line 230): apply the `Pad` primitive unless
every per-axis padding is `(0,0)`, in which case return the input. -/
def padM (t : T) (arg : List (Nat × Nat)) : T :=
  if arg.any (fun p => p ≠ (0, 0)) then pad t arg else t

/-- `Tensor.shrink` (tensor.py line 231): apply the `Shrink` primitive
unless every per-axis range is the full `(0, size)` range. -/
def shrinkM (t : T) (arg : List (Nat × Nat)) : T :=
  if (List.zip arg t.shape).any (fun q => q.1 ≠ (0, q.2)) then shrink t arg else t

/-- `Tensor.slice` (tensor.py lines 236-239) with all per-axis bounds
given: negative starts become a leading pad, ends past the axis size become
a trailing pad, then shrink to the shifted range.  (`None` entries are
replaced by `(0, size)` by the source before this computation; callers of
this embedding pass the bounds directly.) -/
def sliceT (t : T) (arg : List (Int × Int)) : T :=
  let padding : List (Nat × Nat) :=
    List.zipWith (fun (p : Int × Int) (s : Nat) => ((-p.1).toNat, (p.2 - s).toNat)) arg t.shape
  let padded := padM t padding
  shrinkM padded
    (List.zipWith (fun (p : Int × Int) (q : Nat × Nat) =>
      ((p.1 + q.1).toNat, (p.2 + q.1).toNat)) arg padding)

/-! ### Generalized strided indexing (`Tensor.__getitem__`, slice indices) -/

/-- A Python slice `start:stop:step` with optional fields. -/
abbrev PySlice := Option Int × Option Int × Option Int

/-- Modelled from Python's documented `slice.indices(length)` semantics
(the source delegates to it at tensor.py line 268): clamp `start`/`stop`
to the valid range for the sign of `step`, resolving negative values
relative to the end. -/
def sliceIndices (sl : PySlice) (length : Nat) : Int × Int × Int :=
  let step := sl.2.2.getD 1
  let L : Int := length
  let lower : Int := if step < 0 then -1 else 0
  let upper : Int := if step < 0 then L - 1 else L
  let start := match sl.1 with
    | none => if step < 0 then upper else lower
    | some v => if v < 0 then max (v + L) lower else min v upper
  let stop := match sl.2.1 with
    | none => if step < 0 then lower else upper
    | some v => if v < 0 then max (v + L) lower else min v upper
  (start, stop, step)

/-- `num_zeros` (tensor.py line 279): trailing zero-pad needed so the axis
length becomes a multiple of the step. -/
def numZeros (step dimSz : Nat) : Nat :=
  if step = 1 || dimSz % step = 0 then 0 else step - dimSz % step

/-- Every other element of a list starting with the first (`l[::2]`). -/
def everyOther {α : Type} : List α → List α
  | [] => []
  | [a] => [a]
  | a :: _ :: rest => a :: everyOther rest

/-- `Tensor.__getitem__` (tensor.py lines 258-298) restricted to the case
where every index is a slice (the case of claim C6; integer and `None`
indices are not embedded).  Missing trailing axes get the full slice; each
slice is normalized by `sliceIndices`; negative-step axes are shrunk with
swapped bounds and flipped; strides with magnitude `> 1` are realized by
pad to a multiple of the stride, reshape to expose the stride as a new
trailing axis, and shrink to index 0 on that axis. -/
def getitem (t : T) (val : List PySlice) : T :=
  let origSlices := val ++ List.replicate (t.shape.length - val.length)
    (((none : Option Int), (none : Option Int), (none : Option Int)) : PySlice)
  let sst := List.zipWith sliceIndices origSlices t.shape
  let strides := sst.map (fun q => q.2.2)
  let newSlice : List (Int × Int) :=
    sst.map (fun q => if q.2.2 > 0 then (q.1, q.2.1) else (q.2.1 + 1, q.1 + 1))
  let newShape : List Nat := newSlice.map (fun p => (p.2 - p.1).toNat)
  let sliced := shrinkM t (newSlice.map (fun p => (p.1.toNat, p.2.toNat)))
  let flipAxes := (List.range strides.length).filter (fun i => strides.getD i 0 < 0)
  let flipped := if flipAxes ≠ [] then flip sliced flipAxes else sliced
  if strides.any (fun s => s > 1 || s < 0) then
    let strides2 := strides.map Int.natAbs
    let paddings := List.zipWith (fun s dimSz => ((0 : Nat), numZeros s dimSz)) strides2 flipped.shape
    let padded := padM flipped paddings
    let newShape2 := (List.zipWith (fun (sh s : Nat) => [sh / s, s]) padded.shape strides2).flatten
    let reshaped := reshape padded newShape2
    let newShape3 := everyOther newShape2
    let finalSlice := (newShape3.map (fun sh => [((0 : Nat), sh), ((0 : Nat), 1)])).flatten
    let sliced2 := shrinkM reshaped finalSlice
    reshape sliced2 newShape3
  else
    reshape sliced newShape

set_option maxHeartbeats 4000000 in
/-- C6: on a one-dimensional tensor of length 10, the slice `[8:2:-2]`
(negative step, non-unit stride) yields a tensor of length 3 holding the
elements at original indices 8, 6 and 4 in that order; the pipeline first
normalizes the slice to a positive step and flips the axis. -/
theorem getitem_strided_negative_step (f : List Nat → Int) :
    (getitem ⟨[10], f⟩ [(some 8, some 2, some (-2))]).shape = [3] ∧
    (getitem ⟨[10], f⟩ [(some 8, some 2, some (-2))]).data [0] = f [8] ∧
    (getitem ⟨[10], f⟩ [(some 8, some 2, some (-2))]).data [1] = f [6] ∧
    (getitem ⟨[10], f⟩ [(some 8, some 2, some (-2))]).data [2] = f [4] := by
  have hE : getitem ⟨[10], f⟩ [(some 8, some 2, some (-2))] =
      reshape (shrinkM (reshape (flip (shrinkM ⟨[10], f⟩ [(3, 9)]) [0]) [3, 2])
        [(0, 3), (0, 1)]) [3] := by
    unfold getitem
    norm_num [sliceIndices, numZeros, everyOther, List.zipWith, List.range_succ, List.getD]
    rfl
  rw [hE]
  refine ⟨rfl, ?_, ?_, ?_⟩ <;>
    norm_num [reshape, shrinkM, shrink, flip, idxUnflat, idxFlat, List.zipWith,
      List.range_succ, List.getD]

/-! ### `_pool` output extents (tensor.py lines 386-417) -/

/-- Per-axis test of `_pool`'s branch condition (tensor.py line 391): the
general path handles overlapping windows (`k > s`) or dilation (`d ≠ 1`),
the fast path the rest. -/
def poolUsesGeneralPath (k s d : Nat) : Bool := k > s || d ≠ 1

/-- General-path output extent per axis (tensor.py line 392):
`(i - d*(k-1) - 1)//s + 1` with Python floor division. -/
def poolOutGeneral (i d k s : Nat) : Int :=
  Int.fdiv ((i : Int) - (d : Int) * ((k : Int) - 1) - 1) (s : Int) + 1

/-- Fast-path output extent per axis (tensor.py line 409):
`(i + (s - k))//s` with Python floor division. -/
def poolOutFast (i s k : Nat) : Int :=
  Int.fdiv ((i : Int) + ((s : Int) - (k : Int))) (s : Int)

/-- Direct enumeration of the window start positions of a kernel of size
`k` sliding with stride `s` over an axis of length `i`: the starts are the
multiples `j*s` whose window still fits (`j*s + k ≤ i`). -/
def windowStartCount (i k s : Nat) : Nat :=
  ((Finset.range (i + 1)).filter (fun j => j * s + k ≤ i)).card

/-- A list maps to itself when the function fixes each member. -/
theorem map_eq_self_of_mem {α : Type} {f : α → α} {l : List α}
    (h : ∀ a ∈ l, f a = a) : l.map f = l := by
  induction l with
  | nil => rfl
  | cons a l ih =>
    simp only [List.map_cons, h a (List.mem_cons_self a l),
      ih (fun b hb => h b (List.mem_cons_of_mem a hb))]

/-- C7: for a pooled axis of length `i` with kernel `k ≤ i`, stride
`s ≥ 1` and dilation 1, the general-path formula and the fast-path formula
both give output extent `(i-k)/s + 1`, which equals the number of window
start positions enumerated directly. -/
theorem pool_output_length (i k s : Nat) (hk : 1 ≤ k) (hki : k ≤ i) (hs : 1 ≤ s) :
    poolOutGeneral i 1 k s = (((i - k) / s + 1 : Nat) : Int) ∧
    poolOutFast i s k = (((i - k) / s + 1 : Nat) : Int) ∧
    windowStartCount i k s = (i - k) / s + 1 := by
  have hnum : ((i : Int) - (1 : Nat) * ((k : Int) - 1) - 1) = ((i - k : Nat) : Int) := by
    rw [Nat.cast_sub hki]; push_cast; ring
  refine ⟨?_, ?_, ?_⟩
  · unfold poolOutGeneral
    rw [hnum, ← Int.ofNat_fdiv]
    push_cast
    ring
  · unfold poolOutFast
    have h2 : ((i : Int) + ((s : Int) - (k : Int))) = ((i - k + s : Nat) : Int) := by
      rw [Nat.cast_add, Nat.cast_sub hki]; ring
    rw [h2, ← Int.ofNat_fdiv, Nat.add_div_right _ (by omega)]
  · unfold windowStartCount
    have hset : (Finset.range (i + 1)).filter (fun j => j * s + k ≤ i) =
        Finset.range ((i - k) / s + 1) := by
      ext j
      simp only [Finset.mem_filter, Finset.mem_range, Nat.lt_succ_iff]
      constructor
      · rintro ⟨-, hw⟩
        exact (Nat.le_div_iff_mul_le (by omega)).mpr (by omega)
      · intro hj
        have hmul : j * s ≤ i - k := (Nat.le_div_iff_mul_le (by omega)).mp hj
        have hjj : j ≤ j * s := Nat.le_mul_of_pos_right j (by omega)
        exact ⟨by omega, by omega⟩
    rw [hset, Finset.card_range]

/-! ### `Tensor.reshape` shape resolution (tensor.py lines 223-226) -/

/-- `Tensor.reshape`'s target-shape resolution (tensor.py line 226): each
`-1` entry is replaced by `-prod(self.shape) // prod(new_shape)` (Python
floor division, with the product taken over the target shape including the
`-1` itself); other entries are kept. -/
def resolveShape (selfShape : List Nat) (newShape : List Int) : List Int :=
  newShape.map (fun s =>
    if s = -1 then Int.fdiv (-(selfShape.prod : Int)) newShape.prod else s)

/-- C10: when the target shape has exactly one `-1` and the product `Q` of
the remaining (positive) entries divides the element count (witnessed by a
cofactor `c` with `count = Q * c`), the `-1` is replaced by exactly `c`;
in particular `reshape(-1)` resolves to the full element count. -/
theorem reshape_resolves_neg_one :
    (∀ (sh : List Nat) (A B : List Int) (c : Int),
      (∀ a ∈ A, 0 < a) → (∀ b ∈ B, 0 < b) →
      (sh.prod : Int) = (A ++ B).prod * c →
      resolveShape sh (A ++ -1 :: B) = A ++ c :: B) ∧
    (∀ sh : List Nat, resolveShape sh [-1] = [(sh.prod : Int)]) := by
  constructor
  · intro sh A B c hA hB hT
    have hQpos : 0 < (A ++ B).prod :=
      List.prod_pos (fun a ha => (List.mem_append.mp ha).elim (hA a) (hB a))
    have hP : (A ++ -1 :: B).prod = -((A ++ B).prod) := by
      simp only [List.prod_append, List.prod_cons]
      ring
    have hval : Int.fdiv (-(sh.prod : Int)) (A ++ -1 :: B).prod = c := by
      rw [hP, hT, show -((A ++ B).prod * c) = -(A ++ B).prod * c by ring,
        Int.mul_fdiv_cancel_left _ (by omega)]
    unfold resolveShape
    rw [List.map_append, List.map_cons]
    rw [map_eq_self_of_mem (fun a ha => if_neg (by have := hA a ha; omega))]
    rw [map_eq_self_of_mem (fun b hb => if_neg (by have := hB b hb; omega))]
    rw [if_pos rfl, hval]
  · intro sh
    unfold resolveShape
    simp only [List.map_cons, List.map_nil, if_pos rfl, List.prod_cons, List.prod_nil]
    rw [show ((-1 : Int) * 1) = -1 by ring,
      show (-(sh.prod : Int)) = (-1) * (sh.prod : Int) by ring,
      Int.mul_fdiv_cancel_left _ (by omega)]
    simp

/-! ### Broadcasted addition (`Tensor._broadcasted` + `mlops.Add`) -/

/-- `Tensor.__add__` via `Tensor._broadcasted` (tensor.py lines 503-509)
for tensor operands: rank-pad the lower-rank operand's shape with leading
1s via reshape, expand both operands to the elementwise-maximum shape, and
apply the elementwise addition primitive (the primitive itself is modelled
from the spec's op catalogue: pointwise `+`). -/
def addB (a b : T) : T :=
  let n := max a.shape.length b.shape.length
  let a2 := reshape a (List.replicate (n - a.shape.length) 1 ++ a.shape)
  let b2 := reshape b (List.replicate (n - b.shape.length) 1 ++ b.shape)
  let shapeRet := List.zipWith max a2.shape b2.shape
  let a3 := expand a2 shapeRet
  let b3 := expand b2 shapeRet
  ⟨shapeRet, fun idx => a3.data idx + b3.data idx⟩

/-! ### Autograd graph engine

Tensors live in an arena (`List Tsr`) indexed by creation order; a parent's
index is always smaller than its child's, mirroring the source where
parent `Tensor` objects exist before the operation's result. -/

/-- The primitive operations appearing in the graphs built here. Each
constructor stores the forward input shape, which is the per-operation
state its backward rule needs. -/
inductive Op where
  | reshapeOp (inputShape : List Nat)
  | expandOp (inputShape : List Nat)
  | sumOp (inputShape : List Nat)
  | addOp

/-- All in-bounds multi-indices of a shape, in lexicographic order. -/
def allIdx : List Nat → List (List Nat)
  | [] => [[]]
  | s :: ss => (((List.range s).map (fun i => (allIdx ss).map (i :: ·)))).flatten

/-- Reduce-sum of `g` to shape `target`: coordinates on axes where
`target` is 1 are summed out (the axes an expand broadcast). -/
def reduceSumTo (g : T) (target : List Nat) : T :=
  ⟨target, fun idx =>
    (((allIdx g.shape).filter (fun j =>
      List.zipWith (fun ts x => if ts = 1 then 0 else x) target j == idx)).map g.data).sum⟩

/-- Modelled from the spec: the backward rules of the primitives
(`mlops.py` is outside the given source).  Per §4.3 of the spec, reshape's
backward reshapes the gradient back to the original shape and expand's
backward sums the gradient over the expanded axes; `sum`'s backward
expands the gradient to the input shape (the dual of expand) and `add`
passes the gradient through to both parents.  The source's backward rules
return a bare value for single-parent ops, normalized to a one-element
sequence by `Tensor.backward` (line 214); this embedding returns the
normalized per-parent list directly. -/
def Op.bwd : Op → T → List (Option T)
  | .reshapeOp ish, g => [some (reshape g ish)]
  | .expandOp ish, g => [some (reduceSumTo g ish)]
  | .sumOp ish, g => [some (expand g ish)]
  | .addOp, g => [some g, some g]

/-- The Operation Context (`Function.__init__`, tensor.py lines 10-14). -/
structure Ctx where
  op : Op
  parents : List Nat
  needs_input_grad : List (Option Bool)
  requires_grad : Option Bool

/-- A graph node (`Tensor`): shape, tri-state requires-grad flag
(`Option Bool`, `none` = unresolved), optional owning context. -/
structure Tsr where
  shape : List Nat
  requires_grad : Option Bool
  ctx : Option Ctx

instance : Inhabited Tsr := ⟨⟨[], none, none⟩⟩

/-- The derivation of a Context's `requires_grad` (tensor.py line 14):
`True if any(needs_input_grad) else (None if any(x is None for x in
needs_input_grad) else False)`; a Python `any` over `Optional[bool]` is
satisfied only by `True` entries. -/
def derivedRequiresGrad (nig : List (Option Bool)) : Option Bool :=
  if nig.any (· == some true) then some true
  else if nig.any (·.isNone) then none
  else some false

/-- `Function.__init__` (tensor.py lines 11-14): record the parents, copy
each parent's `requires_grad` into `needs_input_grad`, and derive the
context's own `requires_grad`. -/
def mkCtx (g : List Tsr) (op : Op) (parents : List Nat) : Ctx :=
  let nig := parents.map (fun p => (g.getD p default).requires_grad)
  ⟨op, parents, nig, derivedRequiresGrad nig⟩

/-- `Function.apply` (tensor.py lines 19-24): build the context, wrap the
forward result in a new node whose `requires_grad` is the context's
derived value, and attach the context iff that value is truthy (`True`)
and the global no-grad flag is unset. -/
def applyOp (noGrad : Bool) (g : List Tsr) (op : Op) (parents : List Nat)
    (outShape : List Nat) : List Tsr :=
  let ctx := mkCtx g op parents
  g ++ [⟨outShape, ctx.requires_grad,
    if ctx.requires_grad == some true && !noGrad then some ctx else none⟩]

/-- Leaf creation (`Tensor.__init__`, tensor.py lines 36-68): a node built
from raw data stores the given `requires_grad` and has no context. -/
def mkLeaf (g : List Tsr) (shape : List Nat) (rg : Option Bool) : List Tsr :=
  g ++ [⟨shape, rg, none⟩]

/-- `Tensor.deepwalk`'s recursive DFS (tensor.py lines 190-198): mark the
node visited, recurse into unvisited parents (nodes without a context are
visited but not appended), then append the node.  `fuel` bounds the
recursion depth; `deepwalk` passes the arena size, which suffices because
every nesting level enters a newly-visited node. -/
def deepwalkAux (g : List Tsr) : Nat → Nat → List Nat × List Nat → List Nat × List Nat
  | 0, _, vn => vn
  | fuel + 1, n, vn =>
    let visited := n :: vn.1
    match (g.getD n default).ctx with
    | none => (visited, vn.2)
    | some c =>
      let vn2 := c.parents.foldl
        (fun acc p => if p ∈ acc.1 then acc else deepwalkAux g fuel p acc)
        (visited, vn.2)
      (vn2.1, vn2.2 ++ [n])

/-- `Tensor.deepwalk` (tensor.py lines 190-198). -/
def deepwalk (g : List Tsr) (root : Nat) : List Nat :=
  (deepwalkAux g g.length root ([], [])).2

/-- Pointwise update of the gradient store (mutation of `t.grad`). -/
def updateGrad (m : Nat → Option T) (k : Nat) (v : T) : Nat → Option T :=
  fun n => if n = k then some v else m n

/-- One iteration of the reverse-pass loop (tensor.py lines 207-219) on
node `n`: skip (pruning the context) when no parent needs grad; otherwise
run the backward rule on the node's gradient and distribute each returned
gradient to parents whose `requires_grad` is truthy, first write or
accumulate by `+`.  A failed assertion (absent gradient, or a gradient
shape differing from the parent shape) yields `none`. -/
def backwardStep (g : List Tsr) (acc : Option (Nat → Option T)) (n : Nat) :
    Option (Nat → Option T) :=
  match acc with
  | none => none
  | some grads =>
    match (g.getD n default).ctx with
    | none => none
    | some c =>
      if !(c.parents.any (fun p => (g.getD p default).requires_grad == some true)) then
        some grads
      else
        match grads n with
        | none => none
        | some gout =>
          (List.zip c.parents (c.op.bwd gout)).foldl
            (fun st pg =>
              match st with
              | none => none
              | some m =>
                match pg.2 with
                | none => some m
                | some gv =>
                  if (g.getD pg.1 default).requires_grad == some true then
                    if gv.shape = (g.getD pg.1 default).shape then
                      some (updateGrad m pg.1 (match m pg.1 with
                        | none => gv
                        | some old => addB old gv))
                    else none
                  else some m)
            (some grads)

/-- `Tensor.backward` (tensor.py lines 200-219): only a scalar (empty
shape) root is accepted; seed its gradient with the constant-1 scalar,
then fold the reverse pass over the reversed toposort.  Returns the final
per-node gradient store, or `none` when an assertion fails. -/
def backward (g : List Tsr) (root : Nat) : Option (Nat → Option T) :=
  if (g.getD root default).shape = [] then
    ((deepwalk g root).reverse).foldl (backwardStep g)
      (some (updateGrad (fun _ => none) root ⟨[], fun _ => 1⟩))
  else none

/-! ### Helper lemmas on lists and the requires-grad derivation -/

theorem getD_append_length {α : Type} (l : List α) (x d : α) :
    (l ++ [x]).getD l.length d = x := by
  induction l with
  | nil => rfl
  | cons a l ih => simp only [List.cons_append, List.length_cons, List.getD_cons_succ]; exact ih

theorem getD_map_lt {α β : Type} (f : α → β) (l : List α) (i : Nat)
    (h : i < l.length) (d : β) (d' : α) :
    (l.map f).getD i d = f (l.getD i d') := by
  induction l generalizing i with
  | nil => simp at h
  | cons a l ih =>
    cases i with
    | zero => rfl
    | succ j => simpa using ih j (by simpa using h)

theorem derivedRequiresGrad_spec (nig : List (Option Bool)) :
    (derivedRequiresGrad nig = some true ↔ some true ∈ nig) ∧
    (derivedRequiresGrad nig = none ↔ (some true ∉ nig ∧ none ∈ nig)) ∧
    (derivedRequiresGrad nig = some false ↔ ∀ r ∈ nig, r = some false) := by
  have hmem1 : nig.any (· == some true) = true ↔ some true ∈ nig := by
    simp [List.any_eq_true]
  have hmem2 : nig.any (·.isNone) = true ↔ none ∈ nig := by
    simp [List.any_eq_true, Option.isNone_iff_eq_none]
  by_cases hc1 : (nig.any fun x => x == some true) = true
  · have hval : derivedRequiresGrad nig = some true := by
      unfold derivedRequiresGrad; rw [if_pos hc1]
    have hin : some true ∈ nig := hmem1.mp hc1
    rw [hval]
    refine ⟨⟨fun _ => hin, fun _ => rfl⟩, ?_, ?_⟩
    · exact ⟨fun h => absurd h (by simp), fun h => absurd hin h.1⟩
    · exact ⟨fun h => absurd h (by simp), fun hall => absurd (hall _ hin) (by simp)⟩
  · have htrue : some true ∉ nig := fun he => hc1 (hmem1.mpr he)
    by_cases hc2 : (nig.any fun x => x.isNone) = true
    · have hval : derivedRequiresGrad nig = none := by
        unfold derivedRequiresGrad; rw [if_neg hc1, if_pos hc2]
      have hnone : none ∈ nig := hmem2.mp hc2
      rw [hval]
      refine ⟨?_, ⟨fun _ => ⟨htrue, hnone⟩, fun _ => rfl⟩, ?_⟩
      · exact ⟨fun h => absurd h (by simp), fun h => absurd h htrue⟩
      · exact ⟨fun h => absurd h (by simp),
          fun hall => absurd (hall none hnone) (by simp)⟩
    · have hnone : none ∉ nig := fun he => hc2 (hmem2.mpr he)
      have hval : derivedRequiresGrad nig = some false := by
        unfold derivedRequiresGrad; rw [if_neg hc1, if_neg hc2]
      have hall : ∀ r ∈ nig, r = some false := by
        intro r hr
        rcases r with _ | b
        · exact absurd hr hnone
        · rcases b with _ | _
          · rfl
          · exact absurd hr htrue
      rw [hval]
      refine ⟨?_, ?_, ⟨fun _ => hall, fun _ => rfl⟩⟩
      · exact ⟨fun h => absurd h (by simp), fun h => absurd h htrue⟩
      · exact ⟨fun h => absurd h (by simp), fun h => absurd h.2 hnone⟩

/-- C2: the constructed Context's derived `requires_grad` is true iff some
parent's flag is exactly true; unresolved iff no parent is true but some
parent is unresolved; false iff every parent's flag is exactly false. -/
theorem ctx_requires_grad_derivation (g : List Tsr) (op : Op) (parents : List Nat) :
    ((mkCtx g op parents).requires_grad = some true ↔
      some true ∈ parents.map (fun p => (g.getD p default).requires_grad)) ∧
    ((mkCtx g op parents).requires_grad = none ↔
      (some true ∉ parents.map (fun p => (g.getD p default).requires_grad) ∧
        none ∈ parents.map (fun p => (g.getD p default).requires_grad))) ∧
    ((mkCtx g op parents).requires_grad = some false ↔
      ∀ r ∈ parents.map (fun p => (g.getD p default).requires_grad), r = some false) :=
  derivedRequiresGrad_spec _

/-- C3: the node produced by `Function.apply` carries a Context iff the
Context's derived `requires_grad` is exactly true and the global no-grad
flag is unset; otherwise it is a detached leaf. -/
theorem apply_attaches_ctx_iff (noGrad : Bool) (g : List Tsr) (op : Op)
    (parents outShape : List Nat) :
    (((applyOp noGrad g op parents outShape).getD g.length default).ctx).isSome = true ↔
      ((mkCtx g op parents).requires_grad = some true ∧ noGrad = false) := by
  unfold applyOp
  rw [getD_append_length]
  by_cases hcond : ((mkCtx g op parents).requires_grad == some true && !noGrad) = true
  · rw [if_pos hcond]
    simp only [Bool.and_eq_true, beq_iff_eq, Bool.not_eq_eq_eq_not, Bool.not_true] at hcond
    simp [hcond]
  · rw [if_neg hcond]
    simp only [Bool.and_eq_true, beq_iff_eq, Bool.not_eq_eq_eq_not, Bool.not_true] at hcond
    simpa using hcond

/-- Counterexample to C4 as stated: with a single parent whose
`requires_grad` is unresolved, the context's `needs_input_grad` entry is
the unresolved value itself, not the boolean false. -/
theorem needs_input_grad_unresolved_entry :
    (mkCtx [(⟨[], none, none⟩ : Tsr)] Op.addOp [0]).needs_input_grad ≠ [some false] := by
  decide

/-- C4 (amended): `needs_input_grad` copies each parent's tri-state
`requires_grad` verbatim; an entry is `some true` iff that parent's flag
is exactly true, but the entry at an unresolved parent is the unresolved
value (`none`), not the boolean false. -/
theorem needs_input_grad_copies_tristate (g : List Tsr) (op : Op) (parents : List Nat) :
    (mkCtx g op parents).needs_input_grad
        = parents.map (fun p => (g.getD p default).requires_grad) ∧
    ∀ i, i < parents.length →
      ((mkCtx g op parents).needs_input_grad.getD i none = some true ↔
        (g.getD (parents.getD i 0) default).requires_grad = some true) := by
  refine ⟨rfl, ?_⟩
  intro i hi
  show ((parents.map (fun p => (g.getD p default).requires_grad)).getD i none = some true) ↔ _
  rw [getD_map_lt _ _ _ hi _ 0]

/-- C5: gradient nodes are detached: a node built by the `Tensor`
constructor with `requires_grad=False` (the seed of the reverse pass and
each wrapped per-parent gradient) has flag false and no context, and any
operation applied to parents whose flags are all false (the accumulation
`t.grad + g` and every step of its broadcasting chain) again yields flag
false and no context. -/
theorem gradient_nodes_detached :
    (∀ (g : List Tsr) (sh : List Nat),
      ((mkLeaf g sh (some false)).getD g.length default).requires_grad = some false ∧
      ((mkLeaf g sh (some false)).getD g.length default).ctx = none) ∧
    (∀ (noGrad : Bool) (g : List Tsr) (op : Op) (parents outShape : List Nat),
      (∀ p ∈ parents, (g.getD p default).requires_grad = some false) →
      ((applyOp noGrad g op parents outShape).getD g.length default).requires_grad
          = some false ∧
      ((applyOp noGrad g op parents outShape).getD g.length default).ctx = none) := by
  constructor
  · intro g sh
    unfold mkLeaf
    rw [getD_append_length]
    exact ⟨rfl, rfl⟩
  · intro noGrad g op parents outShape h
    have hall : ∀ r ∈ parents.map (fun p => (g.getD p default).requires_grad),
        r = some false := by
      intro r hr
      rcases List.mem_map.mp hr with ⟨p, hp, rfl⟩
      exact h p hp
    have hrg : (mkCtx g op parents).requires_grad = some false :=
      (derivedRequiresGrad_spec _).2.2.mpr hall
    unfold applyOp
    rw [getD_append_length]
    refine ⟨hrg, ?_⟩
    have : ((mkCtx g op parents).requires_grad == some true && !noGrad) = false := by
      rw [hrg]; simp
    simp only [this, Bool.false_eq_true, if_false]

/-- Witness for C5 at a concrete input. -/
theorem gradient_nodes_detached_witness :
    (∀ p ∈ [0], (([(⟨[2], some false, none⟩ : Tsr)].getD p default).requires_grad
        = some false)) ∧
    ((applyOp false [(⟨[2], some false, none⟩ : Tsr)] Op.addOp [0] [2]).getD 1
        default).requires_grad = some false ∧
    ((applyOp false [(⟨[2], some false, none⟩ : Tsr)] Op.addOp [0] [2]).getD 1
        default).ctx = none :=
  ⟨by decide, gradient_nodes_detached.2 false [⟨[2], some false, none⟩] Op.addOp [0] [2]
    (by decide)⟩

/-- C9: `backward` on a root whose shape is not the empty (scalar) shape
fails before seeding any gradient or walking the graph; an empty-shape
root passes the check and proceeds to the seeded reverse fold. -/
theorem backward_requires_scalar_shape :
    (∀ (g : List Tsr) (root : Nat), (g.getD root default).shape ≠ [] →
      backward g root = none) ∧
    (∀ (g : List Tsr) (root : Nat), (g.getD root default).shape = [] →
      backward g root = ((deepwalk g root).reverse).foldl (backwardStep g)
        (some (updateGrad (fun _ => none) root ⟨[], fun _ => 1⟩))) := by
  constructor <;> intro g root h <;> unfold backward
  · rw [if_neg h]
  · rw [if_pos h]

/-- Witness for C9 at a concrete input. -/
theorem backward_requires_scalar_shape_witness :
    (([(⟨[2], some true, none⟩ : Tsr)].getD 0 default).shape ≠ []) ∧
    backward [(⟨[2], some true, none⟩ : Tsr)] 0 = none :=
  ⟨by decide, backward_requires_scalar_shape.1 [⟨[2], some true, none⟩] 0 (by decide)⟩

/-- Witness for C4's amended theorem at a concrete input. -/
theorem needs_input_grad_copies_tristate_witness :
    1 < [0, 1].length ∧
    ((mkCtx [(⟨[], some true, none⟩ : Tsr), ⟨[], none, none⟩] Op.addOp
        [0, 1]).needs_input_grad.getD 1 none = some true ↔
      ([(⟨[], some true, none⟩ : Tsr), ⟨[], none, none⟩].getD ([0, 1].getD 1 0)
        default).requires_grad = some true) :=
  ⟨by decide, (needs_input_grad_copies_tristate
    [⟨[], some true, none⟩, ⟨[], none, none⟩] Op.addOp [0, 1]).2 1 (by decide)⟩

/-- Witness for C7 at a concrete input. -/
theorem pool_output_length_witness :
    ((1 ≤ 3 ∧ 3 ≤ 10 ∧ 1 ≤ 2) : Prop) ∧
    poolOutGeneral 10 1 3 2 = (((10 - 3) / 2 + 1 : Nat) : Int) ∧
    poolOutFast 10 2 3 = (((10 - 3) / 2 + 1 : Nat) : Int) ∧
    windowStartCount 10 3 2 = (10 - 3) / 2 + 1 :=
  ⟨⟨by decide, by decide, by decide⟩,
    pool_output_length 10 3 2 (by decide) (by decide) (by decide)⟩

/-- Witness for C10 at a concrete input. -/
theorem reshape_resolves_neg_one_witness :
    ((∀ a ∈ [(3 : Int)], 0 < a) ∧ (∀ b ∈ ([] : List Int), 0 < b) ∧
      (([2, 3] : List Nat).prod : Int) = ([(3 : Int)] ++ []).prod * 2) ∧
    resolveShape [2, 3] ([3] ++ -1 :: []) = [3] ++ 2 :: [] :=
  ⟨⟨by decide, by decide, by decide⟩,
    reshape_resolves_neg_one.1 [2, 3] [3] [] 2 (by decide) (by decide) (by decide)⟩

/-! ### Helper lemmas for the reverse-pass computation -/

theorem zipWith_max_self (l : List Nat) : List.zipWith max l l = l := by
  induction l <;> simp_all

theorem zipWith_mask_valid {sh idx : List Nat} (h : validIdx sh idx = true) :
    List.zipWith (fun ts x => if ts = 1 then 0 else x) sh idx = idx := by
  induction sh generalizing idx with
  | nil => cases idx <;> simp_all [validIdx]
  | cons s ss ih =>
    cases idx with
    | nil => simp [validIdx] at h
    | cons i is =>
      simp only [validIdx, Bool.and_eq_true, decide_eq_true_eq] at h
      simp only [List.zipWith]
      rw [ih h.2]
      by_cases hs : s = 1
      · rw [if_pos hs]
        have : i = 0 := by omega
        rw [this]
      · rw [if_neg hs]

theorem allIdx_mem {sh j : List Nat} : j ∈ allIdx sh ↔ validIdx sh j = true := by
  induction sh generalizing j with
  | nil =>
    cases j <;> simp [allIdx, validIdx]
  | cons s ss ih =>
    simp only [allIdx, List.mem_flatten, List.mem_map]
    constructor
    · rintro ⟨l, ⟨i, hi, rfl⟩, hj⟩
      rcases List.mem_map.mp hj with ⟨tl, htl, rfl⟩
      simp [validIdx, List.mem_range.mp hi, ih.mp htl]
    · intro hv
      cases j with
      | nil => simp [validIdx] at hv
      | cons i is =>
        simp only [validIdx, Bool.and_eq_true, decide_eq_true_eq] at hv
        exact ⟨(allIdx ss).map (i :: ·), ⟨i, List.mem_range.mpr hv.1, rfl⟩,
          List.mem_map.mpr ⟨is, ih.mpr hv.2, rfl⟩⟩

theorem allIdx_nodup (sh : List Nat) : (allIdx sh).Nodup := by
  induction sh with
  | nil => simp [allIdx]
  | cons s ss ih =>
    rw [allIdx, List.nodup_flatten]
    constructor
    · intro l hl
      rcases List.mem_map.mp hl with ⟨i, -, rfl⟩
      exact ih.map (fun a b hab => by injection hab)
    · rw [List.pairwise_map]
      refine (List.nodup_range s).imp ?_
      intro a b hne
      rw [List.disjoint_left]
      rintro x hx1 hx2
      rcases List.mem_map.mp hx1 with ⟨t1, -, rfl⟩
      rcases List.mem_map.mp hx2 with ⟨t2, -, he⟩
      exact hne (by injection he with h1 h2; exact h1.symm)

theorem filter_beq_singleton {α : Type} [BEq α] [LawfulBEq α] {l : List α} (hnd : l.Nodup)
    {a : α} (ha : a ∈ l) : l.filter (fun x => x == a) = [a] := by
  induction l with
  | nil => cases ha
  | cons b l ih =>
    by_cases hab : a = b
    · subst hab
      rw [List.filter_cons_of_pos (by simp)]
      have hnotin : a ∉ l := (List.nodup_cons.mp hnd).1
      have hnil : l.filter (fun x => x == a) = [] := by
        rw [List.filter_eq_nil_iff]
        intro x hx hbeq
        exact hnotin ((eq_of_beq hbeq) ▸ hx)
      rw [hnil]
    · have hmem : a ∈ l := by
        rcases List.mem_cons.mp ha with he | hm
        · exact absurd he hab
        · exact hm
      rw [List.filter_cons_of_neg (by
        simp only [beq_iff_eq]
        exact fun he => hab he.symm)]
      exact ih (List.nodup_cons.mp hnd).2 hmem

theorem reduceSumTo_self {g : T} {sh idx : List Nat} (hg : g.shape = sh)
    (h : validIdx sh idx = true) : (reduceSumTo g sh).data idx = g.data idx := by
  unfold reduceSumTo
  dsimp only
  rw [hg]
  rw [List.filter_congr (fun j hj => by
    rw [zipWith_mask_valid (allIdx_mem.mp (hg ▸ hj))])]
  rw [filter_beq_singleton (allIdx_nodup sh) (allIdx_mem.mpr h)]
  simp

theorem reduceSumTo_shape (g : T) (t : List Nat) : (reduceSumTo g t).shape = t := rfl

theorem reshape_self_data {t : T} {sh idx : List Nat} (ht : t.shape = sh)
    (h : validIdx sh idx = true) : (reshape t sh).data idx = t.data idx := by
  unfold reshape
  dsimp only
  rw [ht, idxUnflat_flat h]

theorem expand_self_data {t : T} {sh idx : List Nat} (ht : t.shape = sh)
    (h : validIdx sh idx = true) : (expand t sh).data idx = t.data idx := by
  unfold expand
  dsimp only
  rw [ht, zipWith_mask_valid h]

theorem addB_same_shape {a b : T} {sh : List Nat} (ha : a.shape = sh) (hb : b.shape = sh) :
    (addB a b).shape = sh := by
  unfold addB
  dsimp only
  rw [ha, hb, Nat.max_self, Nat.sub_self]
  simp [reshape, zipWith_max_self]

theorem addB_same_data {a b : T} {sh idx : List Nat} (ha : a.shape = sh) (hb : b.shape = sh)
    (h : validIdx sh idx = true) :
    (addB a b).data idx = a.data idx + b.data idx := by
  unfold addB
  dsimp only
  rw [ha, hb, Nat.max_self, Nat.sub_self]
  simp only [List.replicate, List.nil_append, reshape, expand, zipWith_max_self]
  rw [show List.zipWith (fun ts i => if ts = 1 then 0 else i) sh idx = idx from
    zipWith_mask_valid h]
  rw [ha, hb, idxUnflat_flat h]

/-- The accumulated gradient `t.grad + g` reaching the leaf in the
`x + x` reverse pass: shape `sh` and value 2 at every valid index. -/
theorem xAddX_final_grad {sh idx : List Nat} (h : validIdx sh idx = true) :
    (addB (reshape (reduceSumTo (expand (reshape (⟨[], fun _ => 1⟩ : T)
        (List.replicate sh.length 1)) sh) sh) sh)
      (reshape (reduceSumTo (expand (reshape (⟨[], fun _ => 1⟩ : T)
        (List.replicate sh.length 1)) sh) sh) sh)).shape = sh ∧
    (addB (reshape (reduceSumTo (expand (reshape (⟨[], fun _ => 1⟩ : T)
        (List.replicate sh.length 1)) sh) sh) sh)
      (reshape (reduceSumTo (expand (reshape (⟨[], fun _ => 1⟩ : T)
        (List.replicate sh.length 1)) sh) sh) sh)).data idx = 2 := by
  constructor
  · exact @addB_same_shape _ _ sh rfl rfl
  · have hd := @addB_same_data
      (reshape (reduceSumTo (expand (reshape (⟨[], fun _ => 1⟩ : T)
        (List.replicate sh.length 1)) sh) sh) sh)
      (reshape (reduceSumTo (expand (reshape (⟨[], fun _ => 1⟩ : T)
        (List.replicate sh.length 1)) sh) sh) sh) sh idx rfl rfl h
    rw [hd]
    have h1 := @reshape_self_data
      (reduceSumTo (expand (reshape (⟨[], fun _ => 1⟩ : T)
        (List.replicate sh.length 1)) sh) sh) sh idx rfl h
    rw [h1]
    have h2 := @reduceSumTo_self
      (expand (reshape (⟨[], fun _ => 1⟩ : T) (List.replicate sh.length 1)) sh) sh idx rfl h
    rw [h2]
    show (1 : Int) + 1 = 2
    norm_num

/-- The graph built by `y = x + x; z = y.sum()` on a leaf `x` of shape `sh`
with `requires_grad=True`, mirroring the source's creation order: node 0 is
the leaf `x`; `x + x` runs `Tensor._broadcasted` (tensor.py lines 503-507),
which reshapes each operand (nodes 1, 2), expands each to the broadcast
shape (nodes 3, 4) and applies `Add` (node 5); `y.sum()` runs `_reduce`
(lines 354-359), applying `Sum` with `new_shape=(1,)*n` (node 6) and
reshaping the result to the scalar shape `()` (node 7). -/
def xAddXGraph (sh : List Nat) : List Tsr :=
  let g0 := mkLeaf [] sh (some true)
  let g1 := applyOp false g0 (.reshapeOp sh) [0] sh
  let g2 := applyOp false g1 (.reshapeOp sh) [0] sh
  let g3 := applyOp false g2 (.expandOp sh) [1] sh
  let g4 := applyOp false g3 (.expandOp sh) [2] sh
  let g5 := applyOp false g4 .addOp [3, 4] sh
  let g6 := applyOp false g5 (.sumOp sh) [5] (List.replicate sh.length 1)
  applyOp false g6 (.reshapeOp (List.replicate sh.length 1)) [6] []

/-- `xAddXGraph` with every node record evaluated. -/
def xAddXNodes (sh : List Nat) : List Tsr :=
  [⟨sh, some true, none⟩,
   ⟨sh, some true, some ⟨.reshapeOp sh, [0], [some true], some true⟩⟩,
   ⟨sh, some true, some ⟨.reshapeOp sh, [0], [some true], some true⟩⟩,
   ⟨sh, some true, some ⟨.expandOp sh, [1], [some true], some true⟩⟩,
   ⟨sh, some true, some ⟨.expandOp sh, [2], [some true], some true⟩⟩,
   ⟨sh, some true, some ⟨.addOp, [3, 4], [some true, some true], some true⟩⟩,
   ⟨List.replicate sh.length 1, some true, some ⟨.sumOp sh, [5], [some true], some true⟩⟩,
   ⟨[], some true, some ⟨.reshapeOp (List.replicate sh.length 1), [6], [some true], some true⟩⟩]

set_option maxHeartbeats 2000000 in
/-- C1: for a leaf `x` of any shape with `requires_grad=True`, running
`backward` on `(x + x).sum()` leaves `x.gradient` with the shape of `x`
and the value 2 at every in-bounds position: the two contributing paths
each deliver gradient 1, the first written directly and the second
accumulated by addition. -/
theorem backward_x_plus_x_grad_two (sh idx : List Nat) (h : validIdx sh idx = true) :
    ((backward (xAddXGraph sh) 7).bind (fun m => m 0)).map T.shape = some sh ∧
    ((backward (xAddXGraph sh) 7).bind (fun m => m 0)).map (fun gx => gx.data idx)
      = some 2 := by
  have g0 : (xAddXNodes sh)[0]? = some ⟨sh, some true, none⟩ := rfl
  have g1 : (xAddXNodes sh)[1]? =
    some ⟨sh, some true, some ⟨.reshapeOp sh, [0], [some true], some true⟩⟩ := rfl
  have g2 : (xAddXNodes sh)[2]? =
    some ⟨sh, some true, some ⟨.reshapeOp sh, [0], [some true], some true⟩⟩ := rfl
  have g3 : (xAddXNodes sh)[3]? =
    some ⟨sh, some true, some ⟨.expandOp sh, [1], [some true], some true⟩⟩ := rfl
  have g4 : (xAddXNodes sh)[4]? =
    some ⟨sh, some true, some ⟨.expandOp sh, [2], [some true], some true⟩⟩ := rfl
  have g5 : (xAddXNodes sh)[5]? =
    some ⟨sh, some true, some ⟨.addOp, [3, 4], [some true, some true], some true⟩⟩ := rfl
  have g6 : (xAddXNodes sh)[6]? =
    some ⟨List.replicate sh.length 1, some true, some ⟨.sumOp sh, [5], [some true],
      some true⟩⟩ := rfl
  have g7 : (xAddXNodes sh)[7]? =
    some ⟨[], some true, some ⟨.reshapeOp (List.replicate sh.length 1), [6], [some true],
      some true⟩⟩ := rfl
  have e1 : backward (xAddXNodes sh) 7 =
      List.foldl (backwardStep (xAddXNodes sh))
        (some (updateGrad (fun _ => none) 7 ⟨[], fun _ => 1⟩)) [7, 6, 5, 4, 2, 3, 1] := by
    unfold backward
    rw [if_pos (show ((xAddXNodes sh).getD 7 default).shape = [] from rfl)]
    rfl
  have s7 : backwardStep (xAddXNodes sh)
      (some (updateGrad (fun _ => none) 7 ⟨[], fun _ => 1⟩)) 7 =
      some (updateGrad (updateGrad (fun _ => none) 7 ⟨[], fun _ => 1⟩) 6
        (reshape ⟨[], fun _ => 1⟩ (List.replicate sh.length 1))) := by
    simp [backwardStep, g7, g6, updateGrad, Op.bwd, reshape]
  have s6 : backwardStep (xAddXNodes sh)
      (some (updateGrad (updateGrad (fun _ => none) 7 ⟨[], fun _ => 1⟩) 6
        (reshape ⟨[], fun _ => 1⟩ (List.replicate sh.length 1)))) 6 =
      some (updateGrad (updateGrad (updateGrad (fun _ => none) 7 ⟨[], fun _ => 1⟩) 6
        (reshape ⟨[], fun _ => 1⟩ (List.replicate sh.length 1))) 5
        (expand (reshape ⟨[], fun _ => 1⟩ (List.replicate sh.length 1)) sh)) := by
    simp [backwardStep, g6, g5, updateGrad, Op.bwd, reshape, expand]
  have s5 : backwardStep (xAddXNodes sh)
      (some (updateGrad (updateGrad (updateGrad (fun _ => none) 7 ⟨[], fun _ => 1⟩) 6
        (reshape ⟨[], fun _ => 1⟩ (List.replicate sh.length 1))) 5
        (expand (reshape ⟨[], fun _ => 1⟩ (List.replicate sh.length 1)) sh))) 5 =
      some (updateGrad (updateGrad
        (updateGrad (updateGrad (updateGrad (fun _ => none) 7 ⟨[], fun _ => 1⟩) 6
          (reshape ⟨[], fun _ => 1⟩ (List.replicate sh.length 1))) 5
          (expand (reshape ⟨[], fun _ => 1⟩ (List.replicate sh.length 1)) sh)) 3
        (expand (reshape ⟨[], fun _ => 1⟩ (List.replicate sh.length 1)) sh)) 4
        (expand (reshape ⟨[], fun _ => 1⟩ (List.replicate sh.length 1)) sh)) := by
    simp [backwardStep, g5, g3, g4, updateGrad, Op.bwd, reshape, expand]
  have s4 : backwardStep (xAddXNodes sh)
      (some (updateGrad (updateGrad
        (updateGrad (updateGrad (updateGrad (fun _ => none) 7 ⟨[], fun _ => 1⟩) 6
          (reshape ⟨[], fun _ => 1⟩ (List.replicate sh.length 1))) 5
          (expand (reshape ⟨[], fun _ => 1⟩ (List.replicate sh.length 1)) sh)) 3
        (expand (reshape ⟨[], fun _ => 1⟩ (List.replicate sh.length 1)) sh)) 4
        (expand (reshape ⟨[], fun _ => 1⟩ (List.replicate sh.length 1)) sh))) 4 =
      some (updateGrad (updateGrad (updateGrad
        (updateGrad (updateGrad (updateGrad (fun _ => none) 7 ⟨[], fun _ => 1⟩) 6
          (reshape ⟨[], fun _ => 1⟩ (List.replicate sh.length 1))) 5
          (expand (reshape ⟨[], fun _ => 1⟩ (List.replicate sh.length 1)) sh)) 3
        (expand (reshape ⟨[], fun _ => 1⟩ (List.replicate sh.length 1)) sh)) 4
        (expand (reshape ⟨[], fun _ => 1⟩ (List.replicate sh.length 1)) sh)) 2
        (reduceSumTo (expand (reshape ⟨[], fun _ => 1⟩ (List.replicate sh.length 1)) sh) sh)) := by
    simp [backwardStep, g4, g2, updateGrad, Op.bwd, reshape, expand, reduceSumTo_shape]
  have s2 : backwardStep (xAddXNodes sh)
      (some (updateGrad (updateGrad (updateGrad
        (updateGrad (updateGrad (updateGrad (fun _ => none) 7 ⟨[], fun _ => 1⟩) 6
          (reshape ⟨[], fun _ => 1⟩ (List.replicate sh.length 1))) 5
          (expand (reshape ⟨[], fun _ => 1⟩ (List.replicate sh.length 1)) sh)) 3
        (expand (reshape ⟨[], fun _ => 1⟩ (List.replicate sh.length 1)) sh)) 4
        (expand (reshape ⟨[], fun _ => 1⟩ (List.replicate sh.length 1)) sh)) 2
        (reduceSumTo (expand (reshape ⟨[], fun _ => 1⟩ (List.replicate sh.length 1)) sh) sh))) 2 =
      some (updateGrad (updateGrad (updateGrad (updateGrad
        (updateGrad (updateGrad (updateGrad (fun _ => none) 7 ⟨[], fun _ => 1⟩) 6
          (reshape ⟨[], fun _ => 1⟩ (List.replicate sh.length 1))) 5
          (expand (reshape ⟨[], fun _ => 1⟩ (List.replicate sh.length 1)) sh)) 3
        (expand (reshape ⟨[], fun _ => 1⟩ (List.replicate sh.length 1)) sh)) 4
        (expand (reshape ⟨[], fun _ => 1⟩ (List.replicate sh.length 1)) sh)) 2
        (reduceSumTo (expand (reshape ⟨[], fun _ => 1⟩ (List.replicate sh.length 1)) sh) sh)) 0
        (reshape (reduceSumTo (expand (reshape ⟨[], fun _ => 1⟩
          (List.replicate sh.length 1)) sh) sh) sh)) := by
    simp [backwardStep, g2, g0, updateGrad, Op.bwd, reshape, expand, reduceSumTo_shape]
  have s3 : backwardStep (xAddXNodes sh)
      (some (updateGrad (updateGrad (updateGrad (updateGrad
        (updateGrad (updateGrad (updateGrad (fun _ => none) 7 ⟨[], fun _ => 1⟩) 6
          (reshape ⟨[], fun _ => 1⟩ (List.replicate sh.length 1))) 5
          (expand (reshape ⟨[], fun _ => 1⟩ (List.replicate sh.length 1)) sh)) 3
        (expand (reshape ⟨[], fun _ => 1⟩ (List.replicate sh.length 1)) sh)) 4
        (expand (reshape ⟨[], fun _ => 1⟩ (List.replicate sh.length 1)) sh)) 2
        (reduceSumTo (expand (reshape ⟨[], fun _ => 1⟩ (List.replicate sh.length 1)) sh) sh)) 0
        (reshape (reduceSumTo (expand (reshape ⟨[], fun _ => 1⟩
          (List.replicate sh.length 1)) sh) sh) sh))) 3 =
      some (updateGrad (updateGrad (updateGrad (updateGrad (updateGrad
        (updateGrad (updateGrad (updateGrad (fun _ => none) 7 ⟨[], fun _ => 1⟩) 6
          (reshape ⟨[], fun _ => 1⟩ (List.replicate sh.length 1))) 5
          (expand (reshape ⟨[], fun _ => 1⟩ (List.replicate sh.length 1)) sh)) 3
        (expand (reshape ⟨[], fun _ => 1⟩ (List.replicate sh.length 1)) sh)) 4
        (expand (reshape ⟨[], fun _ => 1⟩ (List.replicate sh.length 1)) sh)) 2
        (reduceSumTo (expand (reshape ⟨[], fun _ => 1⟩ (List.replicate sh.length 1)) sh) sh)) 0
        (reshape (reduceSumTo (expand (reshape ⟨[], fun _ => 1⟩
          (List.replicate sh.length 1)) sh) sh) sh)) 1
        (reduceSumTo (expand (reshape ⟨[], fun _ => 1⟩ (List.replicate sh.length 1)) sh) sh)) := by
    simp [backwardStep, g3, g1, updateGrad, Op.bwd, reshape, expand, reduceSumTo_shape]
  have s1 : backwardStep (xAddXNodes sh)
      (some (updateGrad (updateGrad (updateGrad (updateGrad (updateGrad
        (updateGrad (updateGrad (updateGrad (fun _ => none) 7 ⟨[], fun _ => 1⟩) 6
          (reshape ⟨[], fun _ => 1⟩ (List.replicate sh.length 1))) 5
          (expand (reshape ⟨[], fun _ => 1⟩ (List.replicate sh.length 1)) sh)) 3
        (expand (reshape ⟨[], fun _ => 1⟩ (List.replicate sh.length 1)) sh)) 4
        (expand (reshape ⟨[], fun _ => 1⟩ (List.replicate sh.length 1)) sh)) 2
        (reduceSumTo (expand (reshape ⟨[], fun _ => 1⟩ (List.replicate sh.length 1)) sh) sh)) 0
        (reshape (reduceSumTo (expand (reshape ⟨[], fun _ => 1⟩
          (List.replicate sh.length 1)) sh) sh) sh)) 1
        (reduceSumTo (expand (reshape ⟨[], fun _ => 1⟩ (List.replicate sh.length 1)) sh) sh))) 1 =
      some (updateGrad (updateGrad (updateGrad (updateGrad (updateGrad (updateGrad
        (updateGrad (updateGrad (updateGrad (fun _ => none) 7 ⟨[], fun _ => 1⟩) 6
          (reshape ⟨[], fun _ => 1⟩ (List.replicate sh.length 1))) 5
          (expand (reshape ⟨[], fun _ => 1⟩ (List.replicate sh.length 1)) sh)) 3
        (expand (reshape ⟨[], fun _ => 1⟩ (List.replicate sh.length 1)) sh)) 4
        (expand (reshape ⟨[], fun _ => 1⟩ (List.replicate sh.length 1)) sh)) 2
        (reduceSumTo (expand (reshape ⟨[], fun _ => 1⟩ (List.replicate sh.length 1)) sh) sh)) 0
        (reshape (reduceSumTo (expand (reshape ⟨[], fun _ => 1⟩
          (List.replicate sh.length 1)) sh) sh) sh)) 1
        (reduceSumTo (expand (reshape ⟨[], fun _ => 1⟩ (List.replicate sh.length 1)) sh) sh)) 0
        (addB
          (reshape (reduceSumTo (expand (reshape ⟨[], fun _ => 1⟩
            (List.replicate sh.length 1)) sh) sh) sh)
          (reshape (reduceSumTo (expand (reshape ⟨[], fun _ => 1⟩
            (List.replicate sh.length 1)) sh) sh) sh))) := by
    simp [backwardStep, g1, g0, updateGrad, Op.bwd, reshape, expand, reduceSumTo_shape]
  have hfold : (backward (xAddXGraph sh) 7).bind (fun m => m 0) =
      some (addB
        (reshape (reduceSumTo (expand (reshape ⟨[], fun _ => 1⟩
          (List.replicate sh.length 1)) sh) sh) sh)
        (reshape (reduceSumTo (expand (reshape ⟨[], fun _ => 1⟩
          (List.replicate sh.length 1)) sh) sh) sh)) := by
    rw [show xAddXGraph sh = xAddXNodes sh from rfl, e1]
    rw [List.foldl_cons, s7, List.foldl_cons, s6, List.foldl_cons, s5, List.foldl_cons, s4,
      List.foldl_cons, s2, List.foldl_cons, s3, List.foldl_cons, s1, List.foldl_nil]
    simp [updateGrad]
  rw [hfold]
  constructor
  · rw [Option.map_some', (xAddX_final_grad h).1]
  · rw [Option.map_some', (xAddX_final_grad h).2]

/-- Witness for C1 at a concrete input. -/
theorem backward_x_plus_x_grad_two_witness :
    validIdx [2] [1] = true ∧
    ((backward (xAddXGraph [2]) 7).bind (fun m => m 0)).map T.shape = some [2] ∧
    ((backward (xAddXGraph [2]) 7).bind (fun m => m 0)).map (fun gx => gx.data [1])
      = some 2 :=
  ⟨by decide, backward_x_plus_x_grad_two [2] [1] (by decide)⟩

/-! ### Pointwise list lemmas for the concatenation proof -/

theorem validIdx_iff {sh idx : List Nat} :
    validIdx sh idx = true ↔
      (idx.length = sh.length ∧ ∀ i, i < sh.length → idx.getD i 0 < sh.getD i 0) := by
  induction sh generalizing idx with
  | nil => cases idx <;> simp [validIdx]
  | cons s ss ih =>
    cases idx with
    | nil => simp [validIdx]
    | cons i is =>
      simp only [validIdx, Bool.and_eq_true, decide_eq_true_eq, List.length_cons]
      rw [ih]
      constructor
      · rintro ⟨h1, h2, h3⟩
        refine ⟨by omega, ?_⟩
        intro j hj
        cases j with
        | zero => simpa using h1
        | succ jj => simpa using h3 jj (by omega)
      · rintro ⟨h1, h2⟩
        refine ⟨by simpa using h2 0 (by omega), by omega, ?_⟩
        intro j hj
        simpa using h2 (j + 1) (by omega)

theorem inPad_iff {sh : List Nat} {arg : List (Nat × Nat)} {idx : List Nat}
    (hlen : arg.length = sh.length) :
    inPad sh arg idx = true ↔
      (idx.length = sh.length ∧ ∀ i, i < sh.length →
        (arg.getD i (0, 0)).1 ≤ idx.getD i 0 ∧
        idx.getD i 0 < (arg.getD i (0, 0)).1 + sh.getD i 0) := by
  induction sh generalizing arg idx with
  | nil =>
    cases arg with
    | cons _ _ => simp at hlen
    | nil => cases idx <;> simp [inPad]
  | cons s ss ih =>
    cases arg with
    | nil => simp at hlen
    | cons p ps =>
      cases idx with
      | nil => simp [inPad]
      | cons i is =>
        simp only [inPad, Bool.and_eq_true, decide_eq_true_eq, List.length_cons]
        rw [ih (by simpa using hlen)]
        constructor
        · rintro ⟨⟨h1, h2⟩, h3, h4⟩
          refine ⟨by omega, ?_⟩
          intro j hj
          cases j with
          | zero => simp only [List.getD_cons_zero]; exact ⟨h1, h2⟩
          | succ jj => simpa using h4 jj (by omega)
        · rintro ⟨h1, h2⟩
          have h0 := h2 0 (by omega)
          simp only [List.getD_cons_zero] at h0
          exact ⟨⟨h0.1, h0.2⟩, by omega, fun j hj => by simpa using h2 (j + 1) (by omega)⟩

theorem list_ext_getD {α : Type} (d : α) {l1 l2 : List α} (hl : l1.length = l2.length)
    (h : ∀ i, i < l1.length → l1.getD i d = l2.getD i d) : l1 = l2 := by
  induction l1 generalizing l2 with
  | nil =>
    cases l2 with
    | nil => rfl
    | cons _ _ => simp at hl
  | cons a l ih =>
    cases l2 with
    | nil => simp at hl
    | cons b m =>
      have h0 := h 0 (by simp)
      simp only [List.getD_cons_zero] at h0
      rw [h0, ih (by simpa using hl) (fun i hi => by
        simpa using h (i + 1) (by simp only [List.length_cons]; omega))]

theorem getD_zipWith {α β γ : Type} (f : α → β → γ) {a : List α} {b : List β} {i : Nat}
    (h1 : i < a.length) (h2 : i < b.length) (da : α) (db : β) (dc : γ) :
    (List.zipWith f a b).getD i dc = f (a.getD i da) (b.getD i db) := by
  induction a generalizing b i with
  | nil => simp at h1
  | cons x xs ih =>
    cases b with
    | nil => simp at h2
    | cons y ys =>
      cases i with
      | zero => rfl
      | succ j =>
        simpa using ih (by simpa using h1) (by simpa using h2)

theorem getD_range {n i : Nat} (h : i < n) : (List.range n).getD i 0 = i := by
  rw [List.getD_eq_getElem?_getD, List.getElem?_range h]
  rfl

theorem getD_set_eq {α : Type} (d : α) {l : List α} {i : Nat} {v : α} (h : i < l.length) :
    (l.set i v).getD i d = v := by
  induction l generalizing i with
  | nil => simp at h
  | cons a t ih =>
    cases i with
    | zero => rfl
    | succ j => simpa using ih (by simpa using h)

theorem getD_set_ne {α : Type} (d : α) {l : List α} {i j : Nat} {v : α} (h : i ≠ j) :
    (l.set i v).getD j d = l.getD j d := by
  induction l generalizing i j with
  | nil => simp
  | cons a t ih =>
    cases i with
    | zero =>
      cases j with
      | zero => exact absurd rfl h
      | succ jj => rfl
    | succ ii =>
      cases j with
      | zero => rfl
      | succ jj => simpa using ih (fun he => h (by omega))

theorem set_getD_self {l : List Nat} {i : Nat} (h : i < l.length) :
    l.set i (l.getD i 0) = l := by
  apply list_ext_getD 0 (by simp)
  intro j hj
  by_cases hij : i = j
  · subst hij
    exact getD_set_eq 0 h
  · exact getD_set_ne 0 hij

theorem scanl_add_getLastD (a : Nat) (l : List Nat) (d : Nat) :
    (List.scanl (· + ·) a l).getLastD d = a + l.sum := by
  induction l generalizing a d with
  | nil => simp [List.scanl]
  | cons x xs ih =>
    rw [List.scanl, List.getLastD_cons, ih]
    simp only [List.sum_cons]
    omega

theorem getD_mem {α : Type} {l : List α} {i : Nat} (h : i < l.length) (d : α) :
    l.getD i d ∈ l := by
  rw [List.getD_eq_getElem?_getD, List.getElem?_eq_getElem h]
  exact List.getElem_mem h

/-! ### Concatenation (`Tensor.cat`, tensor.py lines 300-310) -/

/-- The per-operand slice bounds computed by `Tensor.cat` (lines 307-309):
the full `(0, size)` range on every axis of `self.shape`, with the entry
at `dim` overwritten to `(-k, total - k)` for the operand at cumulative
offset `k` (`total` the concatenated extent). -/
def catSlc (selfShape : List Nat) (dim k total : Nat) : List (Int × Int) :=
  List.zipWith
    (fun (i s : Nat) =>
      if i = dim then (-(k : Int), (total : Int) - (k : Int)) else ((0 : Int), (s : Int)))
    (List.range selfShape.length) selfShape

/-- `Tensor.cat` (tensor.py lines 300-310) for a nonnegative axis `dim`
(the source first normalizes a negative `dim` by adding the rank):
cumulative offsets along `dim` via a running sum, each operand embedded at
its offset into the full concatenated extent through `slice`, and the
embeddings summed with the broadcasted `__add__`. -/
def cat (t : T) (args : List T) (dim : Nat) : T :=
  let catargs := t :: args
  let cumsum := List.scanl (· + ·) 0 (catargs.map (fun y => y.shape.getD dim 0))
  let total := cumsum.getLastD 0
  let embedded := List.zipWith (fun arg k => sliceT arg (catSlc t.shape dim k total))
    catargs cumsum
  match embedded with
  | [] => t
  | e :: es => es.foldl addB e

/-- Reference lookup of true concatenation: find the operand whose segment
along `dim` contains the index and read it there (0 past the end). -/
def catLookup (ts : List T) (dim : Nat) (idx : List Nat) : Int :=
  match ts with
  | [] => 0
  | u :: us =>
    if idx.getD dim 0 < u.shape.getD dim 0 then u.data idx
    else catLookup us dim (idx.set dim (idx.getD dim 0 - u.shape.getD dim 0))

/-- True concatenation along `dim`, stated from the spec's words: the
operands' common shape with the sizes along `dim` summed, each element
read from the operand whose segment contains it. -/
def concatSpec (t : T) (args : List T) (dim : Nat) : T :=
  ⟨t.shape.set dim ((t :: args).map (fun y => y.shape.getD dim 0)).sum,
   fun idx => catLookup (t :: args) dim idx⟩

/-- The embedded operand list of `cat` with offsets accumulated explicitly. -/
def embedOffsets (tshape : List Nat) (dim total : Nat) : List T → Nat → List T
  | [], _ => []
  | u :: us, k =>
    sliceT u (catSlc tshape dim k total) ::
      embedOffsets tshape dim total us (k + u.shape.getD dim 0)

theorem zipWith_scanl_embed (tshape : List Nat) (dim total : Nat) :
    ∀ (us : List T) (k : Nat),
      List.zipWith (fun arg j => sliceT arg (catSlc tshape dim j total)) us
        (List.scanl (· + ·) k (us.map (fun y => y.shape.getD dim 0)))
        = embedOffsets tshape dim total us k := by
  intro us
  induction us with
  | nil => intro k; rfl
  | cons u rest ih =>
    intro k
    simp only [List.map_cons, List.scanl, List.zipWith_cons_cons, embedOffsets]
    rw [ih]

/-! Semantics of the guarded `pad`/`shrink` methods: on indices valid for
the target shape the no-op branches agree with the primitives. -/

theorem padM_shape {t : T} {arg : List (Nat × Nat)} (hlen : arg.length = t.shape.length) :
    (padM t arg).shape = List.zipWith (fun s p => p.1 + s + p.2) t.shape arg := by
  unfold padM
  by_cases hc : arg.any (fun p => p ≠ (0, 0)) = true
  · rw [if_pos hc]; rfl
  · rw [if_neg hc]
    have hall : ∀ p ∈ arg, p = (0, 0) := by
      intro p hp
      by_contra hne
      exact hc (List.any_eq_true.mpr ⟨p, hp, by simpa using hne⟩)
    symm
    apply list_ext_getD 0 (by simp [List.length_zipWith]; omega)
    intro i hi
    have hi' : i < t.shape.length := by
      simp only [List.length_zipWith] at hi; omega
    rw [getD_zipWith _ hi' (by omega) 0 (0, 0) 0,
      hall _ (getD_mem (by omega) (0, 0))]
    simp

theorem padM_data {t : T} {arg : List (Nat × Nat)} (hlen : arg.length = t.shape.length)
    {idx : List Nat}
    (hv : validIdx (List.zipWith (fun s p => p.1 + s + p.2) t.shape arg) idx = true) :
    (padM t arg).data idx = (pad t arg).data idx := by
  unfold padM
  by_cases hc : arg.any (fun p => p ≠ (0, 0)) = true
  · rw [if_pos hc]
  · rw [if_neg hc]
    have hall : ∀ p ∈ arg, p = (0, 0) := by
      intro p hp
      by_contra hne
      exact hc (List.any_eq_true.mpr ⟨p, hp, by simpa using hne⟩)
    rw [validIdx_iff] at hv
    obtain ⟨hvl, hvb⟩ := hv
    have hlen2 : idx.length = t.shape.length := by
      simp only [List.length_zipWith] at hvl; omega
    have hib : ∀ i, i < t.shape.length → idx.getD i 0 < t.shape.getD i 0 := by
      intro i hi
      have hb := hvb i (by simp only [List.length_zipWith]; omega)
      rw [getD_zipWith _ hi (by omega) 0 (0, 0) 0,
        hall _ (getD_mem (by omega) (0, 0))] at hb
      simpa using hb
    unfold pad
    dsimp only
    rw [if_pos ((inPad_iff hlen).mpr ⟨hlen2, fun i hi => by
      rw [hall _ (getD_mem (by omega) (0, 0))]
      simpa using hib i hi⟩)]
    have hinner : List.zipWith (fun i p => i - p.1) idx arg = idx := by
      apply list_ext_getD 0 (by simp only [List.length_zipWith]; omega)
      intro i hi
      have hi' : i < idx.length := by
        simp only [List.length_zipWith] at hi; omega
      rw [getD_zipWith _ hi' (by omega) 0 (0, 0) 0,
        hall _ (getD_mem (by omega) (0, 0))]
      simp
    rw [hinner]

theorem shrinkM_shape {t : T} {arg : List (Nat × Nat)} (hlen : arg.length = t.shape.length) :
    (shrinkM t arg).shape = arg.map (fun p => p.2 - p.1) := by
  unfold shrinkM
  by_cases hc : (List.zip arg t.shape).any (fun q => q.1 ≠ (0, q.2)) = true
  · rw [if_pos hc]; rfl
  · rw [if_neg hc]
    have hall : ∀ q ∈ List.zip arg t.shape, q.1 = (0, q.2) := by
      intro q hq
      by_contra hne
      exact hc (List.any_eq_true.mpr ⟨q, hq, by simpa using hne⟩)
    symm
    apply list_ext_getD 0 (by simp; omega)
    intro i hi
    have hi' : i < arg.length := by simp at hi; omega
    rw [getD_map_lt _ _ _ hi' 0 (0, 0)]
    have hzq : (List.zip arg t.shape).getD i ((0, 0), 0)
        = (arg.getD i (0, 0), t.shape.getD i 0) := by
      rw [List.zip_eq_zipWith]
      exact getD_zipWith Prod.mk hi' (by omega) (0, 0) 0 ((0, 0), 0)
    have hq : (arg.getD i (0, 0), t.shape.getD i 0).1
        = (0, (arg.getD i (0, 0), t.shape.getD i 0).2) :=
      hall _ (hzq ▸ getD_mem (by simp [List.length_zip]; omega) ((0, 0), 0))
    have hq2 : arg.getD i (0, 0) = (0, t.shape.getD i 0) := hq
    rw [hq2]
    simp

theorem shrinkM_data {t : T} {arg : List (Nat × Nat)} (hlen : arg.length = t.shape.length)
    {idx : List Nat} (hv : validIdx (arg.map (fun p => p.2 - p.1)) idx = true) :
    (shrinkM t arg).data idx = (shrink t arg).data idx := by
  unfold shrinkM
  by_cases hc : (List.zip arg t.shape).any (fun q => q.1 ≠ (0, q.2)) = true
  · rw [if_pos hc]
  · rw [if_neg hc]
    have hall : ∀ q ∈ List.zip arg t.shape, q.1 = (0, q.2) := by
      intro q hq
      by_contra hne
      exact hc (List.any_eq_true.mpr ⟨q, hq, by simpa using hne⟩)
    unfold shrink
    dsimp only
    rw [validIdx_iff] at hv
    obtain ⟨hvl, -⟩ := hv
    have hlenidx : idx.length = arg.length := by simpa using hvl
    have hinner : List.zipWith (fun i p => i + p.1) idx arg = idx := by
      apply list_ext_getD 0 (by simp only [List.length_zipWith]; omega)
      intro i hi
      have hi' : i < arg.length := by simp only [List.length_zipWith] at hi; omega
      rw [getD_zipWith _ (by omega) hi' 0 (0, 0) 0]
      have hzq : (List.zip arg t.shape).getD i ((0, 0), 0)
          = (arg.getD i (0, 0), t.shape.getD i 0) := by
        rw [List.zip_eq_zipWith]
        exact getD_zipWith Prod.mk hi' (by omega) (0, 0) 0 ((0, 0), 0)
      have hq : (arg.getD i (0, 0), t.shape.getD i 0).1
          = (0, (arg.getD i (0, 0), t.shape.getD i 0).2) :=
        hall _ (hzq ▸ getD_mem (by simp [List.length_zip]; omega) ((0, 0), 0))
      have hq2 : arg.getD i (0, 0) = (0, t.shape.getD i 0) := hq
      rw [hq2]
      simp
    rw [hinner]

/-- Characterization of one `cat` operand embedded by `slice` (tensor.py
line 310): the embedding has the full concatenated shape, reads the
operand shifted by its offset inside its segment along `dim`, and reads 0
outside it. -/
theorem sliceT_cat_embed {t : T} {tshape : List Nat} {dim k total : Nat}
    (hdim : dim < tshape.length)
    (hlen : t.shape.length = tshape.length)
    (hoff : ∀ i, i < tshape.length → i ≠ dim → t.shape.getD i 0 = tshape.getD i 0)
    (hkm : k + t.shape.getD dim 0 ≤ total) :
    (sliceT t (catSlc tshape dim k total)).shape = tshape.set dim total ∧
    ∀ idx, validIdx (tshape.set dim total) idx = true →
      (sliceT t (catSlc tshape dim k total)).data idx =
        if k ≤ idx.getD dim 0 ∧ idx.getD dim 0 < k + t.shape.getD dim 0 then
          t.data (idx.set dim (idx.getD dim 0 - k))
        else 0 := by
  have hcatlen : (catSlc tshape dim k total).length = tshape.length := by
    simp [catSlc, List.length_zipWith]
  have hcat_getD : ∀ i, i < tshape.length →
      (catSlc tshape dim k total).getD i (0, 0) =
        if i = dim then (-(k : Int), (total : Int) - (k : Int))
        else ((0 : Int), (tshape.getD i 0 : Int)) := by
    intro i hi
    unfold catSlc
    rw [getD_zipWith _ (by simpa using hi) hi 0 0 (0, 0), getD_range hi]
  rw [sliceT]
  have hpadlen :
      (List.zipWith (fun (p : Int × Int) (s : Nat) => ((-p.1).toNat, (p.2 - s).toNat))
        (catSlc tshape dim k total) t.shape).length = tshape.length := by
    simp only [List.length_zipWith]
    omega
  have hpad_getD : ∀ i, i < tshape.length →
      (List.zipWith (fun (p : Int × Int) (s : Nat) => ((-p.1).toNat, (p.2 - s).toNat))
        (catSlc tshape dim k total) t.shape).getD i (0, 0) =
        if i = dim then (k, total - k - t.shape.getD dim 0) else (0, 0) := by
    intro i hi
    rw [getD_zipWith _ (by omega) (by omega) (0, 0) 0 (0, 0), hcat_getD i hi]
    by_cases hid : i = dim
    · subst hid
      rw [if_pos rfl, if_pos rfl]
      dsimp only
      simp only [Prod.mk.injEq]
      exact ⟨by omega, by omega⟩
    · rw [if_neg hid, if_neg hid, hoff i hi hid]
      dsimp only
      simp only [Prod.mk.injEq]
      exact ⟨by omega, by omega⟩
  set P : List (Nat × Nat) := List.zipWith
    (fun (p : Int × Int) (s : Nat) => ((-p.1).toNat, (p.2 - (s : Int)).toNat))
    (catSlc tshape dim k total) t.shape with hP
  set A : List (Nat × Nat) := List.zipWith
    (fun (p : Int × Int) (q : Nat × Nat) => ((p.1 + (q.1 : Int)).toNat, (p.2 + (q.1 : Int)).toNat))
    (catSlc tshape dim k total) P with hA
  have hPlen : P.length = tshape.length := by
    rw [hP]
    simp only [List.length_zipWith]
    omega
  have hAlen : A.length = tshape.length := by
    rw [hA]
    simp only [List.length_zipWith]
    omega
  have hA_getD : ∀ i, i < tshape.length →
      A.getD i (0, 0) = if i = dim then (0, total) else (0, tshape.getD i 0) := by
    intro i hi
    rw [hA, getD_zipWith _ (by omega) (by omega) ((0 : Int), (0 : Int)) (0, 0) (0, 0),
      hcat_getD i hi, hpad_getD i hi]
    by_cases hid : i = dim
    · subst hid
      rw [if_pos rfl, if_pos rfl, if_pos rfl]
      dsimp only
      simp only [Prod.mk.injEq]
      exact ⟨by omega, by omega⟩
    · rw [if_neg hid, if_neg hid, if_neg hid]
      dsimp only
      simp only [Prod.mk.injEq]
      exact ⟨by omega, by omega⟩
  have hPadShapeEq : List.zipWith (fun s p => p.1 + s + p.2) t.shape P
      = tshape.set dim total := by
    apply list_ext_getD 0 (by simp only [List.length_zipWith, List.length_set]; omega)
    intro i hi
    have hi' : i < tshape.length := by simp only [List.length_zipWith] at hi; omega
    rw [getD_zipWith _ (by omega) (by omega) 0 (0, 0) 0, hpad_getD i hi']
    by_cases hid : i = dim
    · subst hid
      rw [if_pos rfl, getD_set_eq 0 (by omega)]
      dsimp only
      omega
    · rw [if_neg hid, getD_set_ne 0 (fun he => hid he.symm)]
      dsimp only
      rw [hoff i hi' hid]
      omega
  have hpadM_sh : (padM t P).shape = tshape.set dim total := by
    rw [padM_shape (show P.length = t.shape.length by omega)]
    exact hPadShapeEq
  have hAlen2 : A.length = (padM t P).shape.length := by
    rw [hpadM_sh]
    simp only [List.length_set]
    omega
  have hShrinkMapEq : A.map (fun p => p.2 - p.1) = tshape.set dim total := by
    apply list_ext_getD 0 (by simp only [List.length_map, List.length_set]; omega)
    intro i hi
    have hi' : i < tshape.length := by simp only [List.length_map] at hi; omega
    rw [getD_map_lt _ _ _ (by omega) 0 (0, 0), hA_getD i hi']
    by_cases hid : i = dim
    · subst hid
      rw [if_pos rfl, getD_set_eq 0 (by omega)]
      dsimp only
      omega
    · rw [if_neg hid, getD_set_ne 0 (fun he => hid he.symm)]
      dsimp only
      omega
  constructor
  · rw [shrinkM_shape hAlen2]
    exact hShrinkMapEq
  · intro idx hvS
    have hidxlen : idx.length = tshape.length := by
      have hx := (validIdx_iff.mp hvS).1
      simpa using hx
    have hidxb : ∀ i, i < tshape.length → i ≠ dim → idx.getD i 0 < tshape.getD i 0 := by
      intro i hi hid
      have hb := (validIdx_iff.mp hvS).2 i (by simpa using hi)
      rwa [getD_set_ne 0 (fun he => hid he.symm)] at hb
    have hidxd : idx.getD dim 0 < total := by
      have hb := (validIdx_iff.mp hvS).2 dim (by simpa using hdim)
      rwa [getD_set_eq 0 (by simpa using hdim)] at hb
    rw [shrinkM_data hAlen2 (by rw [hShrinkMapEq]; exact hvS)]
    dsimp only [shrink]
    have hidx2 : List.zipWith (fun i p => i + p.1) idx A = idx := by
      apply list_ext_getD 0 (by simp only [List.length_zipWith]; omega)
      intro i hi
      have hi' : i < tshape.length := by simp only [List.length_zipWith] at hi; omega
      rw [getD_zipWith _ (by omega) (by omega) 0 (0, 0) 0, hA_getD i hi']
      by_cases hid : i = dim
      · rw [if_pos hid]
        simp
      · rw [if_neg hid]
        simp
    rw [hidx2]
    rw [padM_data (show P.length = t.shape.length by omega) (by rw [hPadShapeEq]; exact hvS)]
    dsimp only [pad]
    by_cases hseg : k ≤ idx.getD dim 0 ∧ idx.getD dim 0 < k + t.shape.getD dim 0
    · rw [if_pos hseg]
      have hip : inPad t.shape P idx = true := by
        rw [inPad_iff (show P.length = t.shape.length by omega)]
        refine ⟨by omega, ?_⟩
        intro i hi
        have hi' : i < tshape.length := by omega
        rw [hpad_getD i hi']
        by_cases hid : i = dim
        · subst hid
          rw [if_pos rfl]
          dsimp only
          exact ⟨hseg.1, hseg.2⟩
        · rw [if_neg hid]
          dsimp only
          refine ⟨by omega, ?_⟩
          rw [hoff i hi' hid]
          have := hidxb i hi' hid
          omega
      rw [if_pos hip]
      have hinner : List.zipWith (fun i p => i - p.1) idx P
          = idx.set dim (idx.getD dim 0 - k) := by
        apply list_ext_getD 0 (by simp only [List.length_zipWith, List.length_set]; omega)
        intro i hi
        have hi' : i < tshape.length := by simp only [List.length_zipWith] at hi; omega
        rw [getD_zipWith _ (by omega) (by omega) 0 (0, 0) 0, hpad_getD i hi']
        by_cases hid : i = dim
        · subst hid
          rw [if_pos rfl, getD_set_eq 0 (by omega)]
        · rw [if_neg hid, getD_set_ne 0 (fun he => hid he.symm)]
          dsimp only
          omega
      rw [hinner]
    · rw [if_neg hseg]
      have hip : inPad t.shape P idx = false := by
        cases hb : inPad t.shape P idx
        · rfl
        · have hbd := ((inPad_iff (show P.length = t.shape.length by omega)).mp hb).2
            dim (by omega)
          rw [hpad_getD dim hdim, if_pos rfl] at hbd
          dsimp only at hbd
          exact absurd ⟨hbd.1, hbd.2⟩ hseg
      rw [hip]
      simp

/-- Folding broadcasted addition over the embedded operands starting from
an accumulator of the full concatenated shape adds, at every valid index,
the segment lookup of the remaining operands shifted by the running
offset. -/
theorem fold_embed_data {tshape : List Nat} {dim : Nat} (hdim : dim < tshape.length)
    {total : Nat} :
    ∀ (us : List T) (k : Nat) (acc : T),
      (∀ u ∈ us, u.shape.length = tshape.length ∧
        ∀ i, i < tshape.length → i ≠ dim → u.shape.getD i 0 = tshape.getD i 0) →
      k + (us.map (fun u => u.shape.getD dim 0)).sum ≤ total →
      acc.shape = tshape.set dim total →
      ((embedOffsets tshape dim total us k).foldl addB acc).shape = tshape.set dim total ∧
      ∀ idx, validIdx (tshape.set dim total) idx = true →
        ((embedOffsets tshape dim total us k).foldl addB acc).data idx =
          acc.data idx + (if k ≤ idx.getD dim 0 then
            catLookup us dim (idx.set dim (idx.getD dim 0 - k)) else 0) := by
  intro us
  induction us with
  | nil =>
    intro k acc hsh hsum hacc
    refine ⟨hacc, ?_⟩
    intro idx hv
    simp [embedOffsets, catLookup]
  | cons u rest ih =>
    intro k acc hsh hsum hacc
    have hu := hsh u (List.mem_cons_self u rest)
    have hrest : ∀ w ∈ rest, w.shape.length = tshape.length ∧
        ∀ i, i < tshape.length → i ≠ dim → w.shape.getD i 0 = tshape.getD i 0 :=
      fun w hw => hsh w (List.mem_cons_of_mem u hw)
    simp only [List.map_cons, List.sum_cons] at hsum
    have hkm : k + u.shape.getD dim 0 ≤ total := by omega
    obtain ⟨hEsh, hEdata⟩ := sliceT_cat_embed hdim hu.1 hu.2 hkm
    simp only [embedOffsets, List.foldl_cons]
    have haccE : (addB acc (sliceT u (catSlc tshape dim k total))).shape
        = tshape.set dim total := addB_same_shape hacc hEsh
    have hstep := ih (k + u.shape.getD dim 0) (addB acc (sliceT u (catSlc tshape dim k total)))
      hrest (by omega) haccE
    refine ⟨hstep.1, ?_⟩
    intro idx hv
    rw [hstep.2 idx hv, addB_same_data hacc hEsh hv, hEdata idx hv]
    have hidxlen : idx.length = tshape.length := by
      have hx := (validIdx_iff.mp hv).1
      simpa using hx
    have hgetset : (idx.set dim (idx.getD dim 0 - k)).getD dim 0 = idx.getD dim 0 - k :=
      getD_set_eq 0 (by omega)
    by_cases h1 : k ≤ idx.getD dim 0
    · rw [if_pos h1]
      by_cases h2 : idx.getD dim 0 < k + u.shape.getD dim 0
      · rw [if_pos ⟨h1, h2⟩, if_neg (by omega)]
        simp only [catLookup]
        rw [hgetset, if_pos (by omega)]
        ring
      · rw [if_neg (fun hc => h2 hc.2), if_pos (by omega)]
        simp only [catLookup]
        rw [hgetset, if_neg (by omega), List.set_set,
          show idx.getD dim 0 - k - u.shape.getD dim 0
            = idx.getD dim 0 - (k + u.shape.getD dim 0) from by omega]
        ring
    · rw [if_neg h1, if_neg (fun hc => h1 hc.1), if_neg (by omega)]
      ring

set_option maxHeartbeats 1000000 in
/-- C8: for operands sharing rank and all non-`dim` axis sizes, `cat`
along `dim` equals true concatenation: its size along `dim` is the sum of
the operands' sizes, and at every valid index the sum of the
non-overlapping zero-extended embeddings reads exactly the operand whose
segment contains the index. -/
theorem cat_eq_concat (t : T) (args : List T) (dim : Nat)
    (hdim : dim < t.shape.length)
    (hsh : ∀ s ∈ args.map T.shape, s.length = t.shape.length ∧
      ∀ i, i < t.shape.length → i ≠ dim → s.getD i 0 = t.shape.getD i 0) :
    (cat t args dim).shape
        = t.shape.set dim (((t :: args).map (fun y => y.shape.getD dim 0)).sum) ∧
    (cat t args dim).shape = (concatSpec t args dim).shape ∧
    ∀ idx, validIdx ((cat t args dim).shape) idx = true →
      (cat t args dim).data idx = (concatSpec t args dim).data idx := by
  have hsh' : ∀ u ∈ (t :: args), u.shape.length = t.shape.length ∧
      ∀ i, i < t.shape.length → i ≠ dim → u.shape.getD i 0 = t.shape.getD i 0 := by
    intro u hu
    rcases List.mem_cons.mp hu with rfl | hm
    · exact ⟨rfl, fun i _ _ => rfl⟩
    · exact hsh u.shape (List.mem_map.mpr ⟨u, hm, rfl⟩)
  have htot : (List.scanl (· + ·) 0
        ((t :: args).map (fun y => y.shape.getD dim 0))).getLastD 0
      = ((t :: args).map (fun y => y.shape.getD dim 0)).sum := by
    rw [scanl_add_getLastD]
    omega
  have hsumsplit : ((t :: args).map (fun y => y.shape.getD dim 0)).sum
      = t.shape.getD dim 0 + (args.map (fun y => y.shape.getD dim 0)).sum := by
    simp [List.map_cons, List.sum_cons]
  have hcat : cat t args dim
      = (embedOffsets t.shape dim (((t :: args).map (fun y => y.shape.getD dim 0)).sum)
          args (0 + t.shape.getD dim 0)).foldl addB
        (sliceT t (catSlc t.shape dim 0
          (((t :: args).map (fun y => y.shape.getD dim 0)).sum))) := by
    simp only [cat]
    rw [htot, zipWith_scanl_embed]
    simp only [embedOffsets]
  obtain ⟨hacc_sh, hacc_data⟩ :=
    sliceT_cat_embed (t := t) hdim rfl (fun i _ _ => rfl)
      (show 0 + t.shape.getD dim 0
        ≤ ((t :: args).map (fun y => y.shape.getD dim 0)).sum by omega)
  have hfold := fold_embed_data hdim args (0 + t.shape.getD dim 0)
    (sliceT t (catSlc t.shape dim 0 (((t :: args).map (fun y => y.shape.getD dim 0)).sum)))
    (fun u hu => hsh' u (List.mem_cons_of_mem t hu)) (by omega) hacc_sh
  have hshp : (cat t args dim).shape
      = t.shape.set dim (((t :: args).map (fun y => y.shape.getD dim 0)).sum) := by
    rw [hcat]
    exact hfold.1
  refine ⟨hshp, by rw [hshp]; rfl, ?_⟩
  intro idx hv
  rw [hshp] at hv
  have hidxlen : idx.length = t.shape.length := by
    have hx := (validIdx_iff.mp hv).1
    simpa using hx
  rw [hcat, hfold.2 idx hv, hacc_data idx hv]
  show _ = catLookup (t :: args) dim idx
  simp only [catLookup]
  by_cases hd : idx.getD dim 0 < t.shape.getD dim 0
  · rw [if_pos hd, if_pos (show 0 ≤ idx.getD dim 0 ∧ idx.getD dim 0 < 0 + t.shape.getD dim 0
      from ⟨Nat.zero_le _, by omega⟩)]
    rw [if_neg (show ¬ 0 + t.shape.getD dim 0 ≤ idx.getD dim 0 by omega)]
    rw [show idx.getD dim 0 - 0 = idx.getD dim 0 from by omega,
      set_getD_self (show dim < idx.length by omega)]
    ring
  · rw [if_neg hd, if_neg (show ¬ (0 ≤ idx.getD dim 0 ∧
      idx.getD dim 0 < 0 + t.shape.getD dim 0) from fun hc => hd (by omega))]
    rw [if_pos (show 0 + t.shape.getD dim 0 ≤ idx.getD dim 0 by omega)]
    rw [show idx.getD dim 0 - (0 + t.shape.getD dim 0)
      = idx.getD dim 0 - t.shape.getD dim 0 from by omega]
    ring

/-- Concrete operands for the C8 witness. -/
def catW1 : T := ⟨[2], fun _ => 10⟩

/-- Concrete operands for the C8 witness. -/
def catW2 : T := ⟨[3], fun _ => 20⟩

/-- Witness for C8 at a concrete input. -/
theorem cat_eq_concat_witness :
    (0 < catW1.shape.length ∧
      ∀ s ∈ [catW2].map T.shape, s.length = catW1.shape.length ∧
        ∀ i, i < catW1.shape.length → i ≠ 0 → s.getD i 0 = catW1.shape.getD i 0) ∧
    ((cat catW1 [catW2] 0).shape
        = catW1.shape.set 0 (((catW1 :: [catW2]).map (fun y => y.shape.getD 0 0)).sum) ∧
      (cat catW1 [catW2] 0).shape = (concatSpec catW1 [catW2] 0).shape ∧
      ∀ idx, validIdx ((cat catW1 [catW2] 0).shape) idx = true →
        (cat catW1 [catW2] 0).data idx = (concatSpec catW1 [catW2] 0).data idx) :=
  ⟨⟨by decide, by decide⟩, cat_eq_concat catW1 [catW2] 0 (by decide) (by decide)⟩

end TG

